import Mathlib

/-!
Verification of the dice-rolling core of `server-dice-roll`.

The repository's `src/lib/dice.js` implements parsing of dice-roll
strings, formatting, and rolling.  JavaScript numbers are modelled as
rationals (`ℚ`); the underlying random source `Math.random()` is
modelled as an explicit argument `u : ℚ` with `0 ≤ u < 1` (one value
per die, supplied by a stream `us : ℕ → ℚ`).  `Math.floor` is `Int.floor`.

The spec additionally describes an entropy-pool subsystem
(`EntropyPool`, `SecureRandomInt`) whose code is not present under
`src/`; those parts are modelled from the spec's own words and are
marked as such in their doc comments.
-/

namespace DiceCore

/-- Embedding of `rollSingleDie` from src/lib/dice.js:
`Math.floor(Math.random() * sides) + 1`, with the random draw `u` explicit. -/
def rollSingleDie (sides u : ℚ) : ℚ := ((⌊u * sides⌋ : ℤ) : ℚ) + 1

/-- Embedding of `rollFateDie` from src/lib/dice.js:
`Math.floor(Math.random() * 3) - 1`, with the random draw `u` explicit. -/
def rollFateDie (u : ℚ) : ℚ := ((⌊u * 3⌋ : ℤ) : ℚ) - 1

lemma rollFateDie_eq_iff (u : ℚ) (k : ℤ) :
    rollFateDie u = (k : ℚ) ↔ ⌊u * 3⌋ = k + 1 := by
  unfold rollFateDie
  constructor
  · intro h
    have : ((⌊u * 3⌋ : ℤ) : ℚ) = ((k + 1 : ℤ) : ℚ) := by push_cast; linarith
    exact_mod_cast this
  · intro h
    rw [h]; push_cast; ring

lemma rollSingleDie_eq_iff (s u : ℚ) (i : ℤ) :
    rollSingleDie s u = (i : ℚ) ↔ ⌊u * s⌋ = i - 1 := by
  unfold rollSingleDie
  constructor
  · intro h
    have : ((⌊u * s⌋ : ℤ) : ℚ) = ((i - 1 : ℤ) : ℚ) := by push_cast; linarith
    exact_mod_cast this
  · intro h
    rw [h]; push_cast; ring

end DiceCore

open DiceCore

/-- C1: for every integer `sides ≥ 1` and every `u ∈ [0,1)` of the random
source, `rollSingleDie sides u` is an integer in `[1, sides]`; instantiated
at `sides = 20` by the witness. -/
theorem C1_rollSingleDie_in_range (s : ℤ) (u : ℚ) (hs : 1 ≤ s)
    (h0 : 0 ≤ u) (h1 : u < 1) :
    1 ≤ rollSingleDie (s : ℚ) u ∧ rollSingleDie (s : ℚ) u ≤ (s : ℚ) ∧
      ∃ k : ℤ, rollSingleDie (s : ℚ) u = (k : ℚ) := by
  have hs' : (0 : ℚ) < (s : ℚ) := by exact_mod_cast lt_of_lt_of_le one_pos hs
  have hfl : (0 : ℤ) ≤ ⌊u * (s : ℚ)⌋ := by
    apply Int.le_floor.mpr
    push_cast
    positivity
  have hfu : ⌊u * (s : ℚ)⌋ < s := by
    apply Int.floor_lt.mpr
    calc u * (s : ℚ) < 1 * (s : ℚ) := by
          exact mul_lt_mul_of_pos_right h1 hs'
      _ = (s : ℚ) := one_mul _
  refine ⟨?_, ?_, ⟨⌊u * (s : ℚ)⌋ + 1, by unfold rollSingleDie; push_cast; ring⟩⟩
  · unfold rollSingleDie
    have : (0 : ℚ) ≤ ((⌊u * (s : ℚ)⌋ : ℤ) : ℚ) := by exact_mod_cast hfl
    linarith
  · unfold rollSingleDie
    have : ((⌊u * (s : ℚ)⌋ : ℤ) : ℚ) ≤ (s : ℚ) - 1 := by
      have : ⌊u * (s : ℚ)⌋ ≤ s - 1 := by omega
      exact_mod_cast this
    linarith

/-- Witness for C1 at `sides = 20`, `u = 1/2`. -/
theorem C1_witness :
    1 ≤ rollSingleDie ((20 : ℤ) : ℚ) (1/2) ∧
      rollSingleDie ((20 : ℤ) : ℚ) (1/2) ≤ ((20 : ℤ) : ℚ) ∧
      ∃ k : ℤ, rollSingleDie ((20 : ℤ) : ℚ) (1/2) = (k : ℚ) :=
  C1_rollSingleDie_in_range 20 (1/2) (by norm_num) (by norm_num) (by norm_num)

/-- C2: for every `u ∈ [0,1)`, `rollFateDie u ∈ {-1, 0, 1}`, and for each
outcome `k` of the three the preimage inside `[0,1)` is exactly the
sub-interval `[(k+1)/3, (k+2)/3)` of `[0,1)`, whose length is exactly `1/3`
(so each outcome has probability exactly 1/3 under a uniform source). -/
theorem C2_rollFateDie_uniform (k : ℤ) (hk : k = -1 ∨ k = 0 ∨ k = 1) :
    (∀ u : ℚ, 0 ≤ u → u < 1 →
        rollFateDie u = -1 ∨ rollFateDie u = 0 ∨ rollFateDie u = 1) ∧
    {u : ℚ | 0 ≤ u ∧ u < 1 ∧ rollFateDie u = (k : ℚ)} =
      Set.Ico (((k : ℚ) + 1)/3) (((k : ℚ) + 2)/3) ∧
    Set.Ico (((k : ℚ) + 1)/3) (((k : ℚ) + 2)/3) ⊆ Set.Ico (0 : ℚ) 1 ∧
    ((k : ℚ) + 2)/3 - ((k : ℚ) + 1)/3 = 1/3 := by
  have hk1 : (-1 : ℤ) ≤ k := by rcases hk with h | h | h <;> omega
  have hk2 : k ≤ 1 := by rcases hk with h | h | h <;> omega
  have hk1' : (-1 : ℚ) ≤ (k : ℚ) := by exact_mod_cast hk1
  have hk2' : (k : ℚ) ≤ 1 := by exact_mod_cast hk2
  refine ⟨?_, ?_, ?_, by ring⟩
  · intro u h0 h1
    have hfl : (0 : ℤ) ≤ ⌊u * 3⌋ := by
      apply Int.le_floor.mpr; push_cast; positivity
    have hfu : ⌊u * 3⌋ < 3 := by
      apply Int.floor_lt.mpr; push_cast; linarith
    have hcases : ⌊u * 3⌋ = 0 ∨ ⌊u * 3⌋ = 1 ∨ ⌊u * 3⌋ = 2 := by omega
    rcases hcases with h | h | h
    · left; unfold rollFateDie; rw [h]; norm_num
    · right; left; unfold rollFateDie; rw [h]; norm_num
    · right; right; unfold rollFateDie; rw [h]; norm_num
  · ext u
    simp only [Set.mem_setOf_eq, Set.mem_Ico]
    rw [rollFateDie_eq_iff, Int.floor_eq_iff]
    constructor
    · rintro ⟨h0, h1, hlo, hhi⟩
      push_cast at hlo hhi ⊢
      constructor <;> [linarith; linarith]
    · rintro ⟨hlo, hhi⟩
      have hlo' : ((k : ℚ) + 1) ≤ u * 3 := by linarith
      have hhi' : u * 3 < (k : ℚ) + 2 := by linarith
      refine ⟨by linarith, by linarith, ?_, ?_⟩ <;> push_cast <;> linarith
  · rintro u ⟨hlo, hhi⟩
    exact ⟨by linarith, by linarith⟩

/-- Witness for C2 at outcome `k = 0`. -/
theorem C2_witness :
    (∀ u : ℚ, 0 ≤ u → u < 1 →
        rollFateDie u = -1 ∨ rollFateDie u = 0 ∨ rollFateDie u = 1) ∧
    {u : ℚ | 0 ≤ u ∧ u < 1 ∧ rollFateDie u = ((0 : ℤ) : ℚ)} =
      Set.Ico ((((0 : ℤ) : ℚ) + 1)/3) ((((0 : ℤ) : ℚ) + 2)/3) ∧
    Set.Ico ((((0 : ℤ) : ℚ) + 1)/3) ((((0 : ℤ) : ℚ) + 2)/3) ⊆ Set.Ico (0 : ℚ) 1 ∧
    (((0 : ℤ) : ℚ) + 2)/3 - (((0 : ℤ) : ℚ) + 1)/3 = 1/3 :=
  C2_rollFateDie_uniform 0 (by norm_num)

/-- C3: the six-sided roll is exactly uniform: for each outcome
`i ∈ [1,6]`, the set of `u ∈ [0,1)` with `rollSingleDie 6 u = i` is the
interval `[(i-1)/6, i/6)`, a sub-interval of `[0,1)` of length exactly
`1/6`. -/
theorem C3_rollSingleDie_six_uniform (i : ℤ) (h1 : 1 ≤ i) (h6 : i ≤ 6) :
    {u : ℚ | 0 ≤ u ∧ u < 1 ∧ rollSingleDie 6 u = (i : ℚ)} =
      Set.Ico (((i : ℚ) - 1)/6) ((i : ℚ)/6) ∧
    Set.Ico (((i : ℚ) - 1)/6) ((i : ℚ)/6) ⊆ Set.Ico (0 : ℚ) 1 ∧
    (i : ℚ)/6 - ((i : ℚ) - 1)/6 = 1/6 := by
  have h1' : (1 : ℚ) ≤ (i : ℚ) := by exact_mod_cast h1
  have h6' : (i : ℚ) ≤ 6 := by exact_mod_cast h6
  refine ⟨?_, ?_, by ring⟩
  · ext u
    simp only [Set.mem_setOf_eq, Set.mem_Ico]
    rw [rollSingleDie_eq_iff, Int.floor_eq_iff]
    constructor
    · rintro ⟨h0, hu1, hlo, hhi⟩
      push_cast at hlo hhi ⊢
      constructor <;> [linarith; linarith]
    · rintro ⟨hlo, hhi⟩
      have hlo' : ((i : ℚ) - 1) ≤ u * 6 := by linarith
      have hhi' : u * 6 < (i : ℚ) := by linarith
      refine ⟨by linarith, by linarith, ?_, ?_⟩ <;> push_cast <;> linarith
  · rintro u ⟨hlo, hhi⟩
    exact ⟨by linarith, by linarith⟩

/-- Witness for C3 at outcome `i = 4`. -/
theorem C3_witness :
    {u : ℚ | 0 ≤ u ∧ u < 1 ∧ rollSingleDie 6 u = ((4 : ℤ) : ℚ)} =
      Set.Ico ((((4 : ℤ) : ℚ) - 1)/6) (((4 : ℤ) : ℚ)/6) ∧
    Set.Ico ((((4 : ℤ) : ℚ) - 1)/6) (((4 : ℤ) : ℚ)/6) ⊆ Set.Ico (0 : ℚ) 1 ∧
    ((4 : ℤ) : ℚ)/6 - (((4 : ℤ) : ℚ) - 1)/6 = 1/6 :=
  C3_rollSingleDie_six_uniform 4 (by norm_num) (by norm_num)

/-! ## SecureRandomInt (modelled from the spec, code not under src/) -/

namespace SecureRand

/-- Modelled from the spec: the missing `SecureRandomInt(min, max)`
strong-RNG path (§4.5).  `s` is the integer obtained from the trusted
bounded-range generator (assumed to lie in `[lo, hi]`); `w` is the 4
pool bytes read as a little-endian 32-bit unsigned integer.  The code
reduces `w` mod 3 to a ternary offset in `{-1, 0, +1}`, adds it to `s`,
and wraps a below-`lo` result to `hi` and an above-`hi` result to `lo`. -/
def secureRandomIntStrong (lo hi s : ℤ) (w : ℕ) : ℤ :=
  if s + (((w % 3 : ℕ) : ℤ) - 1) < lo then hi
  else if hi < s + (((w % 3 : ℕ) : ℤ) - 1) then lo
  else s + (((w % 3 : ℕ) : ℤ) - 1)

/-- Modelled from the spec: the fallback path's byte count
`ceil(log2(range)/8)` (§4.5). -/
def fallbackByteCount (range : ℕ) : ℕ := (Nat.clog 2 range + 7) / 8

/-- Modelled from the spec: the missing `SecureRandomInt(min, max)`
fallback path (§4.5): draw `byteCount` pool bytes, assemble big-endian
into an unsigned integer `v`, and return `min + (v mod range)`. -/
def secureRandomIntFallback (lo hi : ℤ) (v : ℕ) : ℤ :=
  lo + ((v : ℤ) % (hi - lo + 1))

end SecureRand

open SecureRand

/-- C4 counterexample: the fallback path is not uniform.  At
`(min, max) = (0, 2)` the byte space has `2^(8·byteCount(3)) = 256`
values; 86 of them map to outcome 0 but only 85 map to outcome 1, so
the distribution over `[0, 2]` under a uniform byte draw is not uniform. -/
theorem C4_counterexample :
    ¬ ((Finset.range (2 ^ (8 * fallbackByteCount 3))).filter
          (fun v => secureRandomIntFallback 0 2 v = 0)).card =
      ((Finset.range (2 ^ (8 * fallbackByteCount 3))).filter
          (fun v => secureRandomIntFallback 0 2 v = 1)).card := by
  have h2 : Nat.clog 2 2 = 1 := Nat.clog_eq_one (by norm_num) (by norm_num)
  have h3 : Nat.clog 2 3 = 2 := by
    rw [Nat.clog_of_two_le one_lt_two (by norm_num)]
    norm_num [h2]
  have hbc : (2 : ℕ) ^ (8 * fallbackByteCount 3) = 256 := by
    unfold fallbackByteCount
    rw [h3]
    norm_num
  rw [hbc]
  decide

/-- C4 (amended): for all integers `min ≤ max`, both paths of
`secureRandomInt` always return a value in `[min, max]` inclusive
(the strong path given a strong draw `s ∈ [min, max]`, for every pool
word `w`; the fallback path for every assembled byte value `v`) —
but the result is not uniformly distributed on the fallback path. -/
theorem C4_secureRandomInt_in_range (lo hi s : ℤ) (w v : ℕ)
    (hle : lo ≤ hi) (hs1 : lo ≤ s) (hs2 : s ≤ hi) :
    (lo ≤ secureRandomIntStrong lo hi s w ∧ secureRandomIntStrong lo hi s w ≤ hi) ∧
    (lo ≤ secureRandomIntFallback lo hi v ∧ secureRandomIntFallback lo hi v ≤ hi) := by
  constructor
  · unfold secureRandomIntStrong
    split_ifs <;> omega
  · have hne : hi - lo + 1 ≠ 0 := by omega
    have h1 := Int.emod_nonneg (v : ℤ) hne
    have h2 := Int.emod_lt_of_pos (v : ℤ) (by omega : (0 : ℤ) < hi - lo + 1)
    unfold secureRandomIntFallback
    omega

/-- Witness for C4's amended theorem at `min = 1`, `max = 6`, `s = 3`,
`w = 5`, `v = 77`. -/
theorem C4_witness :
    (1 ≤ secureRandomIntStrong 1 6 3 5 ∧ secureRandomIntStrong 1 6 3 5 ≤ 6) ∧
    (1 ≤ secureRandomIntFallback 1 6 77 ∧ secureRandomIntFallback 1 6 77 ≤ 6) :=
  C4_secureRandomInt_in_range 1 6 3 5 77 (by norm_num) (by norm_num) (by norm_num)

/-! ## EntropyPool.mix (modelled from the spec, code not under src/) -/

namespace Entropy

/-- Modelled from the spec: the missing `EntropyPool` state — a byte
buffer and a write cursor (§3). -/
structure EntropyPool where
  buffer : List ℤ
  writeCursor : ℕ

/-- Modelled from the spec: strengths outside `[0.01, 1.0]` are clamped
(§4.1). -/
def clampStrength (s : ℚ) : ℚ := max (1/100) (min 1 s)

/-- Modelled from the spec: the per-byte weighted blend of `mix` (§4.1),
`new = round(old*(1-strength) + digestByte*strength) & 0xFF`; the bitwise
`& 0xFF` of the (two's-complement) result is reduction mod 256. -/
def mixByte (old d : ℤ) (s : ℚ) : ℤ :=
  (round ((old : ℚ) * (1 - s) + (d : ℚ) * s)) % 256

/-- Modelled from the spec: one digest-byte write of `mix`, replacing the
pool byte at `(writeCursor + i) mod bufferLength` by the blend (§4.1). -/
def mixWrite (cursor : ℕ) (s : ℚ) (b : List ℤ) (i : ℕ) (d : ℤ) : List ℤ :=
  b.set ((cursor + i) % b.length)
    (mixByte (b.getD ((cursor + i) % b.length) 0) d s)

/-- Modelled from the spec: the missing `EntropyPool.mix(data, strength)`
(§4.1).  The fixed-width digest of `data` is taken as given (`digest`,
an arbitrary byte list, since the hash itself is an external primitive);
each digest byte is blended in at the cursor, and the cursor advances by
the digest length mod the buffer length. -/
def mix (p : EntropyPool) (digest : List ℤ) (strength : ℚ) : EntropyPool :=
  let s := clampStrength strength
  { buffer := digest.enum.foldl (fun b x => mixWrite p.writeCursor s b x.1 x.2) p.buffer,
    writeCursor := (p.writeCursor + digest.length) % p.buffer.length }

/-- A sequence of `mix` calls applied in order. -/
def mixMany (p : EntropyPool) (calls : List (List ℤ × ℚ)) : EntropyPool :=
  calls.foldl (fun q c => mix q c.1 c.2) p

lemma mixByte_range (old d : ℤ) (s : ℚ) :
    0 ≤ mixByte old d s ∧ mixByte old d s < 256 :=
  ⟨Int.emod_nonneg _ (by norm_num), Int.emod_lt_of_pos _ (by norm_num)⟩

lemma mixWrite_range {b : List ℤ} (hb : ∀ x ∈ b, 0 ≤ x ∧ x < 256)
    (cursor : ℕ) (s : ℚ) (i : ℕ) (d : ℤ) :
    ∀ x ∈ mixWrite cursor s b i d, 0 ≤ x ∧ x < 256 := by
  intro x hx
  unfold mixWrite at hx
  rcases List.mem_or_eq_of_mem_set hx with h | h
  · exact hb x h
  · subst h; exact mixByte_range _ _ _

lemma foldl_mixWrite_range {b : List ℤ} (hb : ∀ x ∈ b, 0 ≤ x ∧ x < 256)
    (cursor : ℕ) (s : ℚ) (l : List (ℕ × ℤ)) :
    ∀ x ∈ l.foldl (fun b x => mixWrite cursor s b x.1 x.2) b, 0 ≤ x ∧ x < 256 := by
  induction l generalizing b with
  | nil => exact hb
  | cons hd tl ih =>
      exact ih (mixWrite_range hb cursor s hd.1 hd.2)

lemma mix_range {p : EntropyPool} (hp : ∀ x ∈ p.buffer, 0 ≤ x ∧ x < 256)
    (digest : List ℤ) (strength : ℚ) :
    ∀ x ∈ (mix p digest strength).buffer, 0 ≤ x ∧ x < 256 :=
  foldl_mixWrite_range hp _ _ _

lemma mixWrite_length (cursor : ℕ) (s : ℚ) (b : List ℤ) (i : ℕ) (d : ℤ) :
    (mixWrite cursor s b i d).length = b.length := by
  unfold mixWrite
  exact List.length_set b _ _

lemma foldl_mixWrite_length (cursor : ℕ) (s : ℚ) (l : List (ℕ × ℤ)) :
    ∀ b : List ℤ,
      (l.foldl (fun b x => mixWrite cursor s b x.1 x.2) b).length = b.length := by
  induction l with
  | nil => intro b; rfl
  | cons hd tl ih =>
    intro b
    rw [List.foldl_cons, ih, mixWrite_length]

lemma mix_length (p : EntropyPool) (digest : List ℤ) (strength : ℚ) :
    (mix p digest strength).buffer.length = p.buffer.length :=
  foldl_mixWrite_length _ _ _ _

lemma mixMany_length (p : EntropyPool) (calls : List (List ℤ × ℚ)) :
    (mixMany p calls).buffer.length = p.buffer.length := by
  induction calls generalizing p with
  | nil => rfl
  | cons hd tl ih =>
    show (mixMany (mix p hd.1 hd.2) tl).buffer.length = _
    rw [ih, mix_length]

lemma getD_zero_mem {l : List ℤ} (h : 0 < l.length) : l.getD 0 0 ∈ l := by
  cases l with
  | nil => simp at h
  | cons a t => simp

end Entropy

open Entropy

/-- C8: starting from any pool whose bytes are all in `[0, 255]`
(the pool is seeded with genuine bytes), after any sequence of
`EntropyPool.mix` calls — arbitrary digests and strengths — every byte
of the pool buffer is still in `[0, 255]`. -/
theorem C8_mix_byte_range (p : EntropyPool) (calls : List (List ℤ × ℚ))
    (hp : ∀ x ∈ p.buffer, 0 ≤ x ∧ x ≤ 255) :
    ∀ x ∈ (mixMany p calls).buffer, 0 ≤ x ∧ x ≤ 255 := by
  have key : ∀ (q : EntropyPool), (∀ x ∈ q.buffer, 0 ≤ x ∧ x < 256) →
      ∀ x ∈ (mixMany q calls).buffer, 0 ≤ x ∧ x < 256 := by
    induction calls with
    | nil => intro q hq; exact hq
    | cons hd tl ih =>
        intro q hq
        exact ih (mix q hd.1 hd.2) (mix_range hq hd.1 hd.2)
  intro x hx
  have := key p (fun x hx => ⟨(hp x hx).1, by have := (hp x hx).2; omega⟩) x hx
  omega

/-- Witness for C8: the first byte of a concrete two-byte pool after one
concrete mix call. -/
theorem C8_witness :
    0 ≤ (mixMany ⟨[0, 255], 0⟩ [([10, 300], 1/2)]).buffer.getD 0 0 ∧
      (mixMany ⟨[0, 255], 0⟩ [([10, 300], 1/2)]).buffer.getD 0 0 ≤ 255 :=
  C8_mix_byte_range ⟨[0, 255], 0⟩ [([10, 300], 1/2)] (by decide)
    ((mixMany ⟨[0, 255], 0⟩ [([10, 300], 1/2)]).buffer.getD 0 0)
    (getD_zero_mem (by rw [mixMany_length]; norm_num))

/-! ## Dice-string parsing, formatting and rolling (src/lib/dice.js) -/

namespace DiceStr

/-- The decimal digit character for `n < 10` (used by JS number printing). -/
def digitChar : ℕ → Char
  | 0 => '0'
  | 1 => '1'
  | 2 => '2'
  | 3 => '3'
  | 4 => '4'
  | 5 => '5'
  | 6 => '6'
  | 7 => '7'
  | 8 => '8'
  | 9 => '9'
  | _ => '*'

/-- Numeric value of a decimal digit character (as in `Number.parseInt`). -/
def digitVal (c : Char) : ℕ := c.toNat - 48

/-- Fuel-indexed decimal printing of a natural number (the fuel makes the
recursion structural so that concrete instances evaluate). -/
def natDigitsF : ℕ → ℕ → List Char
  | 0, _ => []
  | fuel + 1, n =>
    if n < 10 then [digitChar n]
    else natDigitsF fuel (n / 10) ++ [digitChar (n % 10)]

/-- Decimal digit string of a natural number, most significant first —
the JS rendering `${n}` of a nonnegative integer. -/
def natDigits (n : ℕ) : List Char := natDigitsF (n + 1) n

/-- JS rendering of an integer-valued number (`${m}` / `m.toString()`):
a minus sign followed by the digits when negative. -/
def intChars (m : ℚ) : List Char :=
  if m < 0 then '-' :: natDigits (-m.num).toNat else natDigits m.num.toNat

/-- Embedding of `Number.parseInt` on a digit string: left fold of decimal digits. -/
def parseNat (cs : List Char) : ℕ := cs.foldl (fun a c => 10 * a + digitVal c) 0

/-- Greedy match of a leading run of decimal digits (the `\d+` pieces of
the regex `^(\d+)?d([0-9]+|f)([+-]\d+)?$`): returns the run and the rest. -/
def spanDigits : List Char → List Char × List Char
  | [] => ([], [])
  | c :: cs =>
    if c.isDigit then
      let p := spanDigits cs
      (c :: p.1, p.2)
    else ([], c :: cs)

/-- The sides capture group of the regex: a digit run or the fate marker. -/
inductive SidesTok where
  | num : List Char → SidesTok
  | fate : SidesTok
deriving DecidableEq

/-- Match of the optional `([+-]\d+)?$` tail: `none` on no modifier,
`some (neg, digits)` on a signed modifier, failure otherwise. -/
def matchModTail (cs : List Char) : Option (Option (Bool × List Char)) :=
  match cs with
  | [] => some none
  | c :: rest =>
    if c = '+' ∨ c = '-' then
      let p := spanDigits rest
      if p.1 = [] then none
      else if p.2 = [] then some (some (c = '-', p.1)) else none
    else none

/-- Deterministic match of the anchored regex
`^(\d+)?d([0-9]+|f)([+-]\d+)?$` of `parseDiceNotation` (the input is
already lowercased): captures the optional count digits, the sides
token, and the optional signed modifier digits. -/
def matchGrammar (cs : List Char) :
    Option (Option (List Char) × SidesTok × Option (Bool × List Char)) :=
  let p := spanDigits cs
  match p.2 with
  | [] => none
  | c :: rest =>
    if c = 'd' then
      match rest with
      | [] => none
      | c2 :: _ =>
        if c2 = 'f' then
          (matchModTail rest.tail).map
            (fun m => ((if p.1 = [] then none else some p.1), SidesTok.fate, m))
        else
          let q := spanDigits rest
          if q.1 = [] then none
          else
            (matchModTail q.2).map
              (fun m => ((if p.1 = [] then none else some p.1), SidesTok.num q.1, m))
    else none

/-- The whitespace removal and lowercasing of `parseDiceNotation`:
`notation.replace(/\s+/g, "").toLowerCase()`. -/
def normalize (cs : List Char) : List Char :=
  (cs.filter (fun c => !c.isWhitespace)).map Char.toLower

/-- The dice-roll configuration object; JS numbers are rationals, and
`diceRollSchema`'s integrality checks are `den = 1` checks. -/
structure DiceRoll where
  type : String
  count : ℚ
  sides : ℚ
  modifier : Option ℚ
deriving DecidableEq

/-- Embedding of `diceRollSchema` from src/lib/dice.js: type in {standard, fate},
`count` a nonnegative integer, `sides` a positive integer, `modifier`
an optional integer. -/
def diceRollValid (d : DiceRoll) : Bool :=
  (d.type == "standard" || d.type == "fate") &&
    (d.count.den == 1) && decide (0 ≤ d.count) &&
    (d.sides.den == 1) && decide (0 < d.sides) &&
    (match d.modifier with
     | none => true
     | some m => m.den == 1)

/-- Numeric value of the sides capture: `f` means 3, digits parse. -/
def sidesVal : SidesTok → ℕ
  | SidesTok.num ds => parseNat ds
  | SidesTok.fate => 3

/-- The modifier value built by `parseDiceNotation`
(`Number.parseInt` of the signed capture). -/
def modVal (m : Option (Bool × List Char)) : Option ℚ :=
  m.map (fun p => if p.1 then -((parseNat p.2 : ℕ) : ℚ) else ((parseNat p.2 : ℕ) : ℚ))

/-- The object `parseDiceNotation` builds from a successful regex match:
count defaults to 1 when the capture is absent, `f` maps to type `fate`
with sides 3, otherwise type `standard` with the parsed sides. -/
def buildDiceRoll
    (r : Option (List Char) × SidesTok × Option (Bool × List Char)) : DiceRoll where
  type := match r.2.1 with
    | SidesTok.fate => "fate"
    | SidesTok.num _ => "standard"
  count := match r.1 with
    | none => 1
    | some ds => ((parseNat ds : ℕ) : ℚ)
  sides := ((sidesVal r.2.1 : ℕ) : ℚ)
  modifier := modVal r.2.2

/-- Embedding of `parseDiceNotation` from src/lib/dice.js: normalize, match the
regex (throw `DiceRollError` on failure), build the object, validate it
against `diceRollSchema` (throw on failure), and return it. -/
def parseDiceNotationFn (cs : List Char) : Except String DiceRoll :=
  match matchGrammar (normalize cs) with
  | none => Except.error ("Invalid dice notation")
  | some r =>
    if diceRollValid (buildDiceRoll r) then Except.ok (buildDiceRoll r)
    else Except.error ("Invalid dice configuration")

/-- The modifier piece of `formatDiceNotation`:
`modifier ? (modifier >= 0 ? "+" + modifier : modifier.toString()) : ""` —
omitted when falsy (absent or 0), rendered signed otherwise. -/
def modChars (md : Option ℚ) : List Char :=
  match md with
  | none => []
  | some m =>
    if m = 0 then []
    else if 0 ≤ m then '+' :: intChars m
    else intChars m

/-- The string built by `formatDiceNotation` (src/lib/dice.js): empty
count for a single die, `F` for fate dice, and the signed modifier piece. -/
def formatCore (d : DiceRoll) : List Char :=
  (if d.count = 1 then [] else intChars d.count) ++
    'd' ::
      ((if d.type = "fate" then ['F'] else intChars d.sides) ++
        modChars d.modifier)

/-- Embedding of `formatDiceNotation` from src/lib/dice.js: validates its input
against `diceRollSchema` (throwing on failure) and renders the string. -/
def formatDiceNotationFn (d : DiceRoll) : Except String (List Char) :=
  if diceRollValid d then Except.ok (formatCore d)
  else Except.error ("Invalid dice configuration")

/-- A roll result as validated by `rollResultSchema`. -/
structure RollResult where
  rolls : List ℚ
  total : ℚ
  original : List Char
deriving DecidableEq

/-- Embedding of `rollResultSchema` from src/lib/dice.js: integer rolls, integer total. -/
def rollResultValid (r : RollResult) : Bool :=
  r.rolls.all (fun q => q.den == 1) && (r.total.den == 1)

/-- The rolls list of `rollDice`: one die per loop iteration `i` of
`for (let i = 0; i < count; i++)`, each consuming one draw `us i`. -/
def rollsFor (d : DiceRoll) (us : ℕ → ℚ) : List ℚ :=
  (List.range d.count.num.toNat).map
    (fun i => if d.type = "fate" then DiceCore.rollFateDie (us i)
              else DiceCore.rollSingleDie d.sides (us i))

/-- The total of `rollDice`:
`rolls.reduce((sum, roll) => sum + roll, 0) + (diceRoll.modifier || 0)` —
the falsy check `modifier || 0` maps both an absent and a zero modifier
to 0. -/
def totalFor (d : DiceRoll) (rolls : List ℚ) : ℚ :=
  rolls.foldl (fun a b => a + b) 0 +
    (match d.modifier with
     | none => 0
     | some m => if m = 0 then 0 else m)

/-- Embedding of `rollDice` from src/lib/dice.js: validate the configuration
(throwing on failure), roll the dice, total them, format the original
string, and validate the result. -/
def rollDice (d : DiceRoll) (us : ℕ → ℚ) : Except String RollResult :=
  if diceRollValid d then
    let result : RollResult := ⟨rollsFor d us, totalFor d (rollsFor d us), formatCore d⟩
    if rollResultValid result then Except.ok result
    else Except.error ("Invalid roll result")
  else Except.error ("Invalid dice configuration")

end DiceStr

namespace DiceStr

lemma natDigitsF_eq (n : ℕ) : ∀ f g, n < f → n < g → natDigitsF f n = natDigitsF g n := by
  induction n using Nat.strong_induction_on with
  | _ n ih =>
    intro f g hf hg
    cases f with
    | zero => omega
    | succ f =>
      cases g with
      | zero => omega
      | succ g =>
        simp only [natDigitsF]
        split
        · rfl
        · rename_i h10
          rw [ih (n / 10) (by omega) f g (by omega) (by omega)]

lemma natDigits_small {n : ℕ} (h : n < 10) : natDigits n = [digitChar n] := by
  simp [natDigits, natDigitsF, h]

lemma natDigits_step {n : ℕ} (h : ¬ n < 10) :
    natDigits n = natDigits (n / 10) ++ [digitChar (n % 10)] := by
  show natDigitsF (n + 1) n = _
  simp only [natDigitsF, h, if_false]
  rw [natDigitsF_eq (n / 10) n (n / 10 + 1) (by omega) (by omega)]
  rfl

lemma digitVal_digitChar {k : ℕ} (h : k < 10) : digitVal (digitChar k) = k := by
  interval_cases k <;> rfl

lemma digitChar_char {k : ℕ} (h : k < 10) :
    (digitChar k).isDigit = true ∧ (digitChar k).isWhitespace = false ∧
      Char.toLower (digitChar k) = digitChar k := by
  interval_cases k <;> exact ⟨by decide, by decide, by decide⟩

lemma natDigits_isDigit (n : ℕ) : ∀ c ∈ natDigits n, c.isDigit = true := by
  induction n using Nat.strong_induction_on with
  | _ n ih =>
    by_cases h : n < 10
    · rw [natDigits_small h]
      intro c hc
      rw [List.mem_singleton] at hc
      subst hc
      exact (digitChar_char h).1
    · rw [natDigits_step h]
      intro c hc
      rcases List.mem_append.mp hc with hc | hc
      · exact ih (n / 10) (by omega) c hc
      · rw [List.mem_singleton] at hc
        subst hc
        exact (digitChar_char (by omega : n % 10 < 10)).1

lemma natDigits_ne_nil (n : ℕ) : natDigits n ≠ [] := by
  by_cases h : n < 10
  · rw [natDigits_small h]; simp
  · rw [natDigits_step h]; simp

lemma parseNat_append_digit (xs : List Char) (c : Char) :
    parseNat (xs ++ [c]) = 10 * parseNat xs + digitVal c := by
  simp [parseNat, List.foldl_append]

lemma parseNat_natDigits (n : ℕ) : parseNat (natDigits n) = n := by
  induction n using Nat.strong_induction_on with
  | _ n ih =>
    by_cases h : n < 10
    · rw [natDigits_small h]
      show 10 * 0 + digitVal (digitChar n) = n
      rw [digitVal_digitChar h]
      omega
    · rw [natDigits_step h, parseNat_append_digit, ih (n / 10) (by omega),
        digitVal_digitChar (by omega : n % 10 < 10)]
      omega

lemma normalize_append (xs ys : List Char) :
    normalize (xs ++ ys) = normalize xs ++ normalize ys := by
  simp [normalize]

lemma normalize_natDigits (n : ℕ) : normalize (natDigits n) = natDigits n := by
  induction n using Nat.strong_induction_on with
  | _ n ih =>
    by_cases h : n < 10
    · rw [natDigits_small h]
      obtain ⟨_, h2, h3⟩ := digitChar_char h
      simp [normalize, h2, h3]
    · obtain ⟨_, h2, h3⟩ := digitChar_char (by omega : n % 10 < 10)
      rw [natDigits_step h, normalize_append, ih (n / 10) (by omega)]
      simp [normalize, h2, h3]

lemma spanDigits_append (ds rest : List Char) (h1 : ∀ c ∈ ds, c.isDigit = true)
    (h2 : ∀ c, rest.head? = some c → c.isDigit = false) :
    spanDigits (ds ++ rest) = (ds, rest) := by
  induction ds with
  | nil =>
    cases rest with
    | nil => rfl
    | cons c cs =>
      have := h2 c rfl
      simp [spanDigits, this]
  | cons d ds ih =>
    have hd : d.isDigit = true := h1 d (List.mem_cons_self _ _)
    have := ih (fun c hc => h1 c (List.mem_cons_of_mem _ hc))
    simp [spanDigits, hd, this]

lemma isDigit_ne_f {c : Char} (h : c.isDigit = true) : ¬ c = 'f' := by
  intro hc
  subst hc
  simp at h

lemma isDigit_ne_d {c : Char} (h : c.isDigit = true) : ¬ c = 'd' := by
  intro hc
  subst hc
  simp at h

lemma cast_num_toNat (q : ℚ) (hden : q.den = 1) (hpos : 0 ≤ q) :
    ((q.num.toNat : ℕ) : ℚ) = q := by
  have h1 : (0 : ℤ) ≤ q.num := Rat.num_nonneg.mpr hpos
  have h2 : ((q.num.toNat : ℕ) : ℤ) = q.num := Int.toNat_of_nonneg h1
  have h3 : ((q.num.toNat : ℕ) : ℚ) = ((q.num : ℤ) : ℚ) := by exact_mod_cast h2
  rw [h3, (Rat.den_eq_one_iff q).mp hden]

end DiceStr

namespace DiceStr

lemma buildDiceRoll_valid (r : Option (List Char) × SidesTok × Option (Bool × List Char)) :
    diceRollValid (buildDiceRoll r) = true ↔ 1 ≤ sidesVal r.2.1 := by
  obtain ⟨cnt, st, md⟩ := r
  rcases st with ds | _ <;> rcases cnt with _ | cs <;>
    rcases md with _ | ⟨neg, ms⟩ <;>
    simp [diceRollValid, buildDiceRoll, sidesVal, modVal, Rat.den_natCast,
      Rat.neg_den, Nat.cast_pos, Nat.cast_nonneg] <;>
    first
      | (cases neg <;> simp <;> omega)
      | omega

end DiceStr

open DiceStr

/-- C5: `parseDiceNotation` succeeds exactly when the normalized input
(whitespace removed, lowercased) matches the regex
`^(\d+)?d([0-9]+|f)([+-]\d+)?$` and the captured sides value is at
least 1 (sides 0 fails `diceRollSchema` validation); a failed regex
match throws `Invalid dice notation`, a sides-0 match throws
`Invalid dice configuration`, and a successful parse returns the built
configuration, with count defaulting to 1 when the count capture is
absent and the fate marker mapped to type `fate` with sides 3. -/
theorem C5_parse_error_iff (cs : List Char) :
    ((∃ d, parseDiceNotationFn cs = Except.ok d) ↔
      (∃ r, matchGrammar (normalize cs) = some r ∧ 1 ≤ sidesVal r.2.1)) ∧
    (matchGrammar (normalize cs) = none →
      parseDiceNotationFn cs = Except.error ("Invalid dice notation")) ∧
    (∀ r, matchGrammar (normalize cs) = some r →
      (sidesVal r.2.1 = 0 →
        parseDiceNotationFn cs = Except.error ("Invalid dice configuration")) ∧
      (1 ≤ sidesVal r.2.1 →
        parseDiceNotationFn cs = Except.ok (buildDiceRoll r) ∧
        (r.1 = none → (buildDiceRoll r).count = 1) ∧
        (r.2.1 = SidesTok.fate →
          (buildDiceRoll r).type = "fate" ∧ (buildDiceRoll r).sides = 3))) := by
  cases h : matchGrammar (normalize cs) with
  | none =>
    have hp : parseDiceNotationFn cs = Except.error ("Invalid dice notation") := by
      unfold parseDiceNotationFn
      rw [h]
    refine ⟨?_, fun _ => hp, ?_⟩
    · constructor
      · rintro ⟨d, hd⟩
        rw [hp] at hd
        exact Except.noConfusion hd
      · rintro ⟨r, hr, _⟩
        exact Option.noConfusion hr
    · intro r hr
      exact Option.noConfusion hr
  | some r =>
    have hp : parseDiceNotationFn cs =
        (if diceRollValid (buildDiceRoll r) = true then Except.ok (buildDiceRoll r)
         else Except.error ("Invalid dice configuration")) := by
      unfold parseDiceNotationFn
      rw [h]
    refine ⟨?_, ?_, ?_⟩
    · by_cases hv : diceRollValid (buildDiceRoll r) = true
      · rw [hp, if_pos hv]
        exact ⟨fun _ => ⟨r, rfl, (buildDiceRoll_valid r).mp hv⟩,
               fun _ => ⟨buildDiceRoll r, rfl⟩⟩
      · rw [hp, if_neg hv]
        constructor
        · rintro ⟨d, hd⟩
          exact Except.noConfusion hd
        · rintro ⟨r', hr', hs⟩
          injection hr' with hrr
          subst hrr
          exact absurd ((buildDiceRoll_valid r).mpr hs) hv
    · intro hn
      exact Option.noConfusion hn
    · intro r' hr'
      injection hr' with hrr
      subst hrr
      constructor
      · intro h0
        have hv : ¬ (diceRollValid (buildDiceRoll r) = true) := by
          rw [buildDiceRoll_valid]
          omega
        rw [hp, if_neg hv]
      · intro h1
        have hv := (buildDiceRoll_valid r).mpr h1
        refine ⟨by rw [hp, if_pos hv], ?_, ?_⟩
        · intro hc
          simp [buildDiceRoll, hc]
        · intro hf
          simp [buildDiceRoll, hf, sidesVal]

/-- Witness for C5 at the concrete input `2d6+3`. -/
theorem C5_witness :
    parseDiceNotationFn ['2', 'd', '6', '+', '3'] =
      Except.ok (buildDiceRoll (some ['2'], SidesTok.num ['6'], some (false, ['3']))) :=
  (((C5_parse_error_iff ['2', 'd', '6', '+', '3']).2.2
      (some ['2'], SidesTok.num ['6'], some (false, ['3'])) (by decide)).2 (by decide)).1

namespace DiceStr

lemma diceRollValid_spec {d : DiceRoll} (h : diceRollValid d = true) :
    (d.type = "standard" ∨ d.type = "fate") ∧ d.count.den = 1 ∧ 0 ≤ d.count ∧
      d.sides.den = 1 ∧ 0 < d.sides ∧ ∀ m, d.modifier = some m → m.den = 1 := by
  simp only [diceRollValid, Bool.and_eq_true, Bool.or_eq_true, beq_iff_eq,
    decide_eq_true_eq] at h
  obtain ⟨⟨⟨⟨⟨h1, h2⟩, h3⟩, h4⟩, h5⟩, h6⟩ := h
  refine ⟨h1, h2, h3, h4, h5, ?_⟩
  intro m hm
  rw [hm] at h6
  simpa using h6

lemma den_one_add {a b : ℚ} (ha : a.den = 1) (hb : b.den = 1) : (a + b).den = 1 := by
  rw [← (Rat.den_eq_one_iff a).mp ha, ← (Rat.den_eq_one_iff b).mp hb,
    ← Int.cast_add, Rat.den_intCast]

lemma rollSingleDie_den (s u : ℚ) : (DiceCore.rollSingleDie s u).den = 1 := by
  unfold DiceCore.rollSingleDie
  have : ((⌊u * s⌋ : ℤ) : ℚ) + 1 = ((⌊u * s⌋ + 1 : ℤ) : ℚ) := by push_cast; ring
  rw [this, Rat.den_intCast]

lemma rollFateDie_den (u : ℚ) : (DiceCore.rollFateDie u).den = 1 := by
  unfold DiceCore.rollFateDie
  have : ((⌊u * 3⌋ : ℤ) : ℚ) - 1 = ((⌊u * 3⌋ - 1 : ℤ) : ℚ) := by push_cast; ring
  rw [this, Rat.den_intCast]

lemma rollsFor_den (d : DiceRoll) (us : ℕ → ℚ) :
    ∀ q ∈ rollsFor d us, q.den = 1 := by
  intro q hq
  unfold rollsFor at hq
  rw [List.mem_map] at hq
  obtain ⟨i, _, rfl⟩ := hq
  by_cases hf : d.type = "fate"
  · rw [if_pos hf]; exact rollFateDie_den _
  · rw [if_neg hf]; exact rollSingleDie_den _ _

lemma foldl_add_den (l : List ℚ) (hl : ∀ q ∈ l, q.den = 1) :
    ∀ a : ℚ, a.den = 1 → (l.foldl (fun x y => x + y) a).den = 1 := by
  induction l with
  | nil => intro a ha; exact ha
  | cons b bs ih =>
    intro a ha
    exact ih (fun q hq => hl q (List.mem_cons_of_mem _ hq))
      (a + b) (den_one_add ha (hl b (List.mem_cons_self _ _)))

lemma totalFor_den {d : DiceRoll} (hv : diceRollValid d = true)
    (l : List ℚ) (hl : ∀ q ∈ l, q.den = 1) : (totalFor d l).den = 1 := by
  obtain ⟨-, -, -, -, -, hmod⟩ := diceRollValid_spec hv
  unfold totalFor
  apply den_one_add (foldl_add_den l hl 0 rfl)
  cases hm : d.modifier with
  | none => rfl
  | some m =>
    by_cases h0 : m = 0
    · simp [h0]
    · simp [h0, hmod m hm]

lemma rollDice_ok_iff (d : DiceRoll) (us : ℕ → ℚ) :
    rollDice d us =
      (if diceRollValid d then
        Except.ok (⟨rollsFor d us, totalFor d (rollsFor d us), formatCore d⟩ : RollResult)
       else Except.error ("Invalid dice configuration")) := by
  unfold rollDice
  by_cases hv : diceRollValid d = true
  · rw [if_pos hv, if_pos hv]
    have hres : rollResultValid
        ⟨rollsFor d us, totalFor d (rollsFor d us), formatCore d⟩ = true := by
      unfold rollResultValid
      rw [Bool.and_eq_true]
      constructor
      · rw [List.all_eq_true]
        intro q hq
        simpa using rollsFor_den d us q hq
      · simpa using totalFor_den hv (rollsFor d us) (rollsFor_den d us)
    rw [if_pos hres]
  · rw [if_neg hv, if_neg hv]

end DiceStr

/-- C6: roll-configuration validation is all-or-nothing: `rollDice`
returns a result exactly when the configuration satisfies
`diceRollSchema` (type in {standard, fate}, integer `count ≥ 0`,
integer `sides ≥ 1`, optional integer modifier), and throws a
validation error — producing no roll result — otherwise, for every
random stream. -/
theorem C6_rollDice_validation (d : DiceRoll) (us : ℕ → ℚ) :
    (∃ r, rollDice d us = Except.ok r) ↔ diceRollValid d = true := by
  rw [rollDice_ok_iff]
  by_cases hv : diceRollValid d = true
  · rw [if_pos hv]
    exact ⟨fun _ => hv, fun _ => ⟨_, rfl⟩⟩
  · rw [if_neg hv]
    constructor
    · rintro ⟨r, hr⟩
      exact Except.noConfusion hr
    · intro h
      exact absurd h hv

/-- C7: one random draw per die: for every configuration accepted by the
schema, the result's `rolls` has exactly `count` entries, and entry `i`
is the single-die roll on draw `us i` — `rollFateDie` when the type is
`fate`, `rollSingleDie(sides)` otherwise. -/
theorem C7_one_draw_per_die (d : DiceRoll) (us : ℕ → ℚ) (r : RollResult)
    (h : rollDice d us = Except.ok r) :
    ((r.rolls.length : ℚ) = d.count) ∧
    ∀ i, ∀ hi : i < r.rolls.length,
      r.rolls.get ⟨i, hi⟩ =
        (if d.type = "fate" then DiceCore.rollFateDie (us i)
         else DiceCore.rollSingleDie d.sides (us i)) := by
  rw [rollDice_ok_iff] at h
  by_cases hv : diceRollValid d = true
  · rw [if_pos hv] at h
    injection h with h
    subst h
    obtain ⟨-, hcden, hcpos, -, -, -⟩ := diceRollValid_spec hv
    constructor
    · show ((rollsFor d us).length : ℚ) = d.count
      unfold rollsFor
      rw [List.length_map, List.length_range]
      exact cast_num_toNat d.count hcden hcpos
    · intro i hi
      simp only [rollsFor, List.get_eq_getElem, List.getElem_map, List.getElem_range]
  · rw [if_neg hv] at h
    exact Except.noConfusion h

/-- Witness for C7: two standard six-sided dice on the all-zero stream. -/
theorem C7_witness :
    ((⟨rollsFor ⟨"standard", 2, 6, none⟩ (fun _ => 0),
        totalFor ⟨"standard", 2, 6, none⟩
          (rollsFor ⟨"standard", 2, 6, none⟩ (fun _ => 0)),
        formatCore ⟨"standard", 2, 6, none⟩⟩ : RollResult).rolls.length : ℚ) =
      (⟨"standard", 2, 6, none⟩ : DiceRoll).count :=
  (C7_one_draw_per_die ⟨"standard", 2, 6, none⟩ (fun _ => 0)
    ⟨rollsFor ⟨"standard", 2, 6, none⟩ (fun _ => 0),
      totalFor ⟨"standard", 2, 6, none⟩
        (rollsFor ⟨"standard", 2, 6, none⟩ (fun _ => 0)),
      formatCore ⟨"standard", 2, 6, none⟩⟩
    (by rw [rollDice_ok_iff, if_pos (by decide)])).1

namespace DiceStr

lemma foldl_add_eq_sum (l : List ℚ) : ∀ a : ℚ, l.foldl (fun x y => x + y) a = a + l.sum := by
  induction l with
  | nil => intro a; simp
  | cons b bs ih =>
    intro a
    simp only [List.foldl_cons, List.sum_cons, ih (a + b)]
    ring

end DiceStr

/-- C9: the result total is the sum of the individual rolls plus the
modifier when a nonzero modifier is present, and the plain sum of the
rolls when the modifier is absent or 0. -/
theorem C9_total_is_sum_plus_modifier (d : DiceRoll) (us : ℕ → ℚ) (r : RollResult)
    (h : rollDice d us = Except.ok r) :
    (d.modifier = none → r.total = r.rolls.sum) ∧
    (d.modifier = some 0 → r.total = r.rolls.sum) ∧
    (∀ m : ℚ, d.modifier = some m → m ≠ 0 → r.total = r.rolls.sum + m) := by
  rw [rollDice_ok_iff] at h
  by_cases hv : diceRollValid d = true
  · rw [if_pos hv] at h
    injection h with h
    subst h
    show (d.modifier = none → totalFor d (rollsFor d us) = (rollsFor d us).sum) ∧ _
    unfold totalFor
    rw [foldl_add_eq_sum, zero_add]
    refine ⟨?_, ?_, ?_⟩
    · intro hm
      rw [hm]
      simp
    · intro hm
      rw [hm]
      simp
    · intro m hm hm0
      rw [hm]
      simp [hm0]
  · rw [if_neg hv] at h
    exact Except.noConfusion h

/-- Witness for C9: one four-sided die with modifier +3 on the
all-zero stream. -/
theorem C9_witness :
    ((⟨"standard", 1, 4, some 3⟩ : DiceRoll).modifier = none →
      (⟨rollsFor ⟨"standard", 1, 4, some 3⟩ (fun _ => 0),
        totalFor ⟨"standard", 1, 4, some 3⟩
          (rollsFor ⟨"standard", 1, 4, some 3⟩ (fun _ => 0)),
        formatCore ⟨"standard", 1, 4, some 3⟩⟩ : RollResult).total =
        (⟨rollsFor ⟨"standard", 1, 4, some 3⟩ (fun _ => 0),
          totalFor ⟨"standard", 1, 4, some 3⟩
            (rollsFor ⟨"standard", 1, 4, some 3⟩ (fun _ => 0)),
          formatCore ⟨"standard", 1, 4, some 3⟩⟩ : RollResult).rolls.sum) ∧
    ((⟨"standard", 1, 4, some 3⟩ : DiceRoll).modifier = some 0 →
      (⟨rollsFor ⟨"standard", 1, 4, some 3⟩ (fun _ => 0),
        totalFor ⟨"standard", 1, 4, some 3⟩
          (rollsFor ⟨"standard", 1, 4, some 3⟩ (fun _ => 0)),
        formatCore ⟨"standard", 1, 4, some 3⟩⟩ : RollResult).total =
        (⟨rollsFor ⟨"standard", 1, 4, some 3⟩ (fun _ => 0),
          totalFor ⟨"standard", 1, 4, some 3⟩
            (rollsFor ⟨"standard", 1, 4, some 3⟩ (fun _ => 0)),
          formatCore ⟨"standard", 1, 4, some 3⟩⟩ : RollResult).rolls.sum) ∧
    (∀ m : ℚ, (⟨"standard", 1, 4, some 3⟩ : DiceRoll).modifier = some m → m ≠ 0 →
      (⟨rollsFor ⟨"standard", 1, 4, some 3⟩ (fun _ => 0),
        totalFor ⟨"standard", 1, 4, some 3⟩
          (rollsFor ⟨"standard", 1, 4, some 3⟩ (fun _ => 0)),
        formatCore ⟨"standard", 1, 4, some 3⟩⟩ : RollResult).total =
        (⟨rollsFor ⟨"standard", 1, 4, some 3⟩ (fun _ => 0),
          totalFor ⟨"standard", 1, 4, some 3⟩
            (rollsFor ⟨"standard", 1, 4, some 3⟩ (fun _ => 0)),
          formatCore ⟨"standard", 1, 4, some 3⟩⟩ : RollResult).rolls.sum + m) :=
  C9_total_is_sum_plus_modifier ⟨"standard", 1, 4, some 3⟩ (fun _ => 0)
    ⟨rollsFor ⟨"standard", 1, 4, some 3⟩ (fun _ => 0),
      totalFor ⟨"standard", 1, 4, some 3⟩
        (rollsFor ⟨"standard", 1, 4, some 3⟩ (fun _ => 0)),
      formatCore ⟨"standard", 1, 4, some 3⟩⟩
    (by rw [rollDice_ok_iff, if_pos (by decide)])

namespace DiceStr

lemma spanDigits_all (ds : List Char) (hds : ∀ c ∈ ds, c.isDigit = true) :
    spanDigits ds = (ds, []) := by
  have h := spanDigits_append ds [] hds (by intro c hc; simp at hc)
  simpa using h

lemma matchModTail_sign (c : Char) (ds : List Char) (hds : ∀ x ∈ ds, x.isDigit = true)
    (hne : ds ≠ []) (hc : c = '+' ∨ c = '-') :
    matchModTail (c :: ds) = some (some (decide (c = '-'), ds)) := by
  rcases hc with rfl | rfl <;>
    simp [matchModTail, spanDigits_all ds hds, hne]

lemma matchGrammar_shape_fate (A C : List Char) (hA : ∀ c ∈ A, c.isDigit = true)
    (mres : Option (Bool × List Char)) (hmt : matchModTail C = some mres) :
    matchGrammar (A ++ 'd' :: 'f' :: C) =
      some ((if A = [] then none else some A), SidesTok.fate, mres) := by
  have hspan : spanDigits (A ++ 'd' :: 'f' :: C) = (A, 'd' :: 'f' :: C) :=
    spanDigits_append _ _ hA
      (by intro c hc; injection hc with h; subst h; decide)
  simp [matchGrammar, hspan, hmt]

lemma matchGrammar_shape_num (A S C : List Char) (hA : ∀ c ∈ A, c.isDigit = true)
    (hS : ∀ c ∈ S, c.isDigit = true) (hSne : S ≠ [])
    (hC : ∀ c, C.head? = some c → c.isDigit = false)
    (mres : Option (Bool × List Char)) (hmt : matchModTail C = some mres) :
    matchGrammar (A ++ 'd' :: (S ++ C)) =
      some ((if A = [] then none else some A), SidesTok.num S, mres) := by
  cases S with
  | nil => exact absurd rfl hSne
  | cons s0 S2 =>
    have hs0 : s0.isDigit = true := hS s0 (List.mem_cons_self _ _)
    have hspan1 : spanDigits (A ++ 'd' :: (s0 :: (S2 ++ C))) =
        (A, 'd' :: (s0 :: (S2 ++ C))) :=
      spanDigits_append _ _ hA
        (by intro c hc; injection hc with h; subst h; decide)
    have hspan2 : spanDigits (s0 :: (S2 ++ C)) = (s0 :: S2, C) := by
      have h := spanDigits_append (s0 :: S2) C hS hC
      simpa using h
    have hf : ¬ (s0 = 'f') := isDigit_ne_f hs0
    simp only [matchGrammar, List.cons_append]
    rw [hspan1]
    simp [hspan2, hf, hmt]

lemma normalize_cons (c : Char) (h1 : c.isWhitespace = false) (cs : List Char) :
    normalize (c :: cs) = Char.toLower c :: normalize cs := by
  simp [normalize, h1]

end DiceStr

/-- C10: parsing inverts formatting: for every schema-valid configuration
whose sides is 3 when the type is fate and whose modifier is absent or
nonzero, `formatDiceNotation` succeeds and
`parseDiceNotation (formatDiceNotation d)` returns `d` itself, an absent
modifier staying absent. -/
theorem C10_parse_format_roundtrip (d : DiceRoll) (hv : diceRollValid d = true)
    (hft : d.type = "fate" → d.sides = 3) (hm : d.modifier ≠ some 0) :
    formatDiceNotationFn d = Except.ok (formatCore d) ∧
    parseDiceNotationFn (formatCore d) = Except.ok d := by
  obtain ⟨ty, cnt, sd, md⟩ := d
  obtain ⟨htype, hcden, hcpos, hsden, hspos, hmden⟩ := diceRollValid_spec hv
  simp only at htype hcden hcpos hsden hspos hmden hft hm
  refine ⟨by unfold formatDiceNotationFn; rw [if_pos hv], ?_⟩
  have hic : intChars cnt = natDigits cnt.num.toNat := by
    unfold intChars
    rw [if_neg (not_lt.mpr hcpos)]
  have hisc : intChars sd = natDigits sd.num.toNat := by
    unfold intChars
    rw [if_neg (not_lt.mpr (le_of_lt hspos))]
  have hcc : ((cnt.num.toNat : ℕ) : ℚ) = cnt := cast_num_toNat _ hcden hcpos
  have hsc : ((sd.num.toNat : ℕ) : ℚ) = sd := cast_num_toNat _ hsden (le_of_lt hspos)
  have hns1 : 1 ≤ sd.num.toNat := by
    by_contra hcon
    have h0 : sd.num.toNat = 0 := by omega
    rw [h0] at hsc
    rw [← hsc] at hspos
    norm_num at hspos
  have hCPdig : ∀ c ∈ (if cnt = 1 then ([] : List Char)
      else natDigits cnt.num.toNat), c.isDigit = true := by
    by_cases h1 : cnt = 1
    · rw [if_pos h1]; intro c hc; simp at hc
    · rw [if_neg h1]; exact natDigits_isDigit _
  have hCPnorm : normalize (if cnt = 1 then ([] : List Char)
      else natDigits cnt.num.toNat) =
      (if cnt = 1 then ([] : List Char) else natDigits cnt.num.toNat) := by
    by_cases h1 : cnt = 1
    · rw [if_pos h1]; rfl
    · rw [if_neg h1]; exact normalize_natDigits _
  obtain ⟨MP, hMPfmt, hMPnorm, hMPhead, mres, hMPmt, hMPval⟩ :
      ∃ MP : List Char,
        modChars md = MP ∧
        normalize MP = MP ∧
        (∀ c, MP.head? = some c → c.isDigit = false) ∧
        ∃ mres, matchModTail MP = some mres ∧ modVal mres = md := by
    cases md with
    | none =>
      refine ⟨[], rfl, rfl, ?_, none, rfl, rfl⟩
      intro c hc
      simp at hc
    | some m =>
      have hm0 : ¬ (m = 0) := by
        intro h0
        rw [h0] at hm
        exact hm rfl
      have hmd : m.den = 1 := hmden m rfl
      by_cases hge : 0 ≤ m
      · have hicm : intChars m = natDigits m.num.toNat := by
          unfold intChars
          rw [if_neg (not_lt.mpr hge)]
        refine ⟨'+' :: natDigits m.num.toNat, ?_, ?_, ?_, ?_⟩
        · simp only [modChars, hm0, if_false, if_pos hge, hicm]
        · rw [normalize_cons '+' (by decide),
            show Char.toLower '+' = '+' from by decide, normalize_natDigits]
        · intro c hc
          injection hc with hc
          subst hc
          decide
        · refine ⟨some (decide ('+' = '-'), natDigits m.num.toNat), ?_, ?_⟩
          · exact matchModTail_sign '+' _ (natDigits_isDigit _) (natDigits_ne_nil _)
              (Or.inl rfl)
          · rw [show (decide ('+' = '-')) = false from by decide]
            show some ((parseNat (natDigits m.num.toNat) : ℕ) : ℚ) = _
            rw [parseNat_natDigits, cast_num_toNat m hmd hge]
      · have hlt : m < 0 := not_le.mp hge
        have hicm : intChars m = '-' :: natDigits (-m.num).toNat := by
          unfold intChars
          rw [if_pos hlt]
        refine ⟨'-' :: natDigits (-m.num).toNat, ?_, ?_, ?_, ?_⟩
        · simp only [modChars, hm0, if_false, if_neg hge, hicm]
        · rw [normalize_cons '-' (by decide),
            show Char.toLower '-' = '-' from by decide, normalize_natDigits]
        · intro c hc
          injection hc with hc
          subst hc
          decide
        · refine ⟨some (decide ('-' = '-'), natDigits (-m.num).toNat), ?_, ?_⟩
          · exact matchModTail_sign '-' _ (natDigits_isDigit _) (natDigits_ne_nil _)
              (Or.inr rfl)
          · rw [show (decide ('-' = '-')) = true from by decide]
            show some (-(((parseNat (natDigits (-m.num).toNat)) : ℕ) : ℚ)) = _
            rw [parseNat_natDigits]
            have hnn : (0 : ℤ) ≤ -m.num := by
              have hlt2 : m.num < 0 := by
                by_contra hc2
                push_neg at hc2
                exact hge (Rat.num_nonneg.mp hc2)
              omega
            have hcast : (((-m.num).toNat : ℕ) : ℚ) = ((-m.num : ℤ) : ℚ) := by
              exact_mod_cast Int.toNat_of_nonneg hnn
            rw [hcast,
              show ((-m.num : ℤ) : ℚ) = -((m.num : ℤ) : ℚ) from by push_cast; ring,
              (Rat.den_eq_one_iff m).mp hmd, neg_neg]
  rcases htype with hty | hty
  · -- standard dice
    subst hty
    have hneq : ¬ (("standard" : String) = "fate") := by decide
    have hfmt : formatCore ⟨"standard", cnt, sd, md⟩ =
        (if cnt = 1 then ([] : List Char) else natDigits cnt.num.toNat) ++
          'd' :: (natDigits sd.num.toNat ++ MP) := by
      simp only [formatCore]
      rw [hic, if_neg hneq, hisc, hMPfmt]
    have hnorm : normalize (formatCore ⟨"standard", cnt, sd, md⟩) =
        (if cnt = 1 then ([] : List Char) else natDigits cnt.num.toNat) ++
          'd' :: (natDigits sd.num.toNat ++ MP) := by
      rw [hfmt, normalize_append, hCPnorm, normalize_cons 'd' (by decide),
        show Char.toLower 'd' = 'd' from by decide, normalize_append,
        normalize_natDigits, hMPnorm]
    have hmatch := matchGrammar_shape_num
      (if cnt = 1 then ([] : List Char) else natDigits cnt.num.toNat)
      (natDigits sd.num.toNat) MP hCPdig (natDigits_isDigit _) (natDigits_ne_nil _)
      hMPhead mres hMPmt
    have hbv : diceRollValid (buildDiceRoll
        ((if (if cnt = 1 then ([] : List Char) else natDigits cnt.num.toNat) = []
            then none else some (if cnt = 1 then ([] : List Char)
              else natDigits cnt.num.toNat)),
          SidesTok.num (natDigits sd.num.toNat), mres)) = true := by
      rw [buildDiceRoll_valid]
      show 1 ≤ parseNat (natDigits sd.num.toNat)
      rw [parseNat_natDigits]
      exact hns1
    have hp : parseDiceNotationFn (formatCore ⟨"standard", cnt, sd, md⟩) =
        (if diceRollValid (buildDiceRoll
            ((if (if cnt = 1 then ([] : List Char) else natDigits cnt.num.toNat) = []
                then none else some (if cnt = 1 then ([] : List Char)
                  else natDigits cnt.num.toNat)),
              SidesTok.num (natDigits sd.num.toNat), mres)) = true
         then Except.ok (buildDiceRoll
            ((if (if cnt = 1 then ([] : List Char) else natDigits cnt.num.toNat) = []
                then none else some (if cnt = 1 then ([] : List Char)
                  else natDigits cnt.num.toNat)),
              SidesTok.num (natDigits sd.num.toNat), mres))
         else Except.error ("Invalid dice configuration")) := by
      unfold parseDiceNotationFn
      rw [hnorm, hmatch]
    rw [hp, if_pos hbv]
    have heq : buildDiceRoll
        ((if (if cnt = 1 then ([] : List Char) else natDigits cnt.num.toNat) = []
            then none else some (if cnt = 1 then ([] : List Char)
              else natDigits cnt.num.toNat)),
          SidesTok.num (natDigits sd.num.toNat), mres) =
        ⟨"standard", cnt, sd, md⟩ := by
      by_cases h1 : cnt = 1
      · simp only [buildDiceRoll, sidesVal, if_pos h1, if_true]
        simp only [DiceRoll.mk.injEq]
        refine ⟨trivial, by rw [h1], ?_, hMPval⟩
        rw [parseNat_natDigits, hsc]
      · simp only [buildDiceRoll, sidesVal, if_neg h1,
          if_neg (natDigits_ne_nil cnt.num.toNat)]
        simp only [DiceRoll.mk.injEq]
        refine ⟨trivial, ?_, ?_, hMPval⟩
        · rw [parseNat_natDigits, hcc]
        · rw [parseNat_natDigits, hsc]
    rw [heq]
  · -- fate dice
    subst hty
    have hsd3 : sd = 3 := hft rfl
    have hfmt : formatCore ⟨"fate", cnt, sd, md⟩ =
        (if cnt = 1 then ([] : List Char) else natDigits cnt.num.toNat) ++
          'd' :: ('F' :: MP) := by
      simp only [formatCore]
      rw [hic, hMPfmt]
      simp
    have hnorm : normalize (formatCore ⟨"fate", cnt, sd, md⟩) =
        (if cnt = 1 then ([] : List Char) else natDigits cnt.num.toNat) ++
          'd' :: ('f' :: MP) := by
      rw [hfmt, normalize_append, hCPnorm, normalize_cons 'd' (by decide),
        show Char.toLower 'd' = 'd' from by decide, normalize_cons 'F' (by decide),
        show Char.toLower 'F' = 'f' from by decide, hMPnorm]
    have hmatch := matchGrammar_shape_fate
      (if cnt = 1 then ([] : List Char) else natDigits cnt.num.toNat)
      MP hCPdig mres hMPmt
    have hbv : diceRollValid (buildDiceRoll
        ((if (if cnt = 1 then ([] : List Char) else natDigits cnt.num.toNat) = []
            then none else some (if cnt = 1 then ([] : List Char)
              else natDigits cnt.num.toNat)),
          SidesTok.fate, mres)) = true := by
      rw [buildDiceRoll_valid]
      show 1 ≤ sidesVal SidesTok.fate
      norm_num [sidesVal]
    have hp : parseDiceNotationFn (formatCore ⟨"fate", cnt, sd, md⟩) =
        (if diceRollValid (buildDiceRoll
            ((if (if cnt = 1 then ([] : List Char) else natDigits cnt.num.toNat) = []
                then none else some (if cnt = 1 then ([] : List Char)
                  else natDigits cnt.num.toNat)),
              SidesTok.fate, mres)) = true
         then Except.ok (buildDiceRoll
            ((if (if cnt = 1 then ([] : List Char) else natDigits cnt.num.toNat) = []
                then none else some (if cnt = 1 then ([] : List Char)
                  else natDigits cnt.num.toNat)),
              SidesTok.fate, mres))
         else Except.error ("Invalid dice configuration")) := by
      unfold parseDiceNotationFn
      rw [hnorm, hmatch]
    rw [hp, if_pos hbv]
    have heq : buildDiceRoll
        ((if (if cnt = 1 then ([] : List Char) else natDigits cnt.num.toNat) = []
            then none else some (if cnt = 1 then ([] : List Char)
              else natDigits cnt.num.toNat)),
          SidesTok.fate, mres) =
        ⟨"fate", cnt, sd, md⟩ := by
      by_cases h1 : cnt = 1
      · simp only [buildDiceRoll, sidesVal, if_pos h1, if_true]
        simp only [DiceRoll.mk.injEq]
        refine ⟨trivial, by rw [h1], ?_, hMPval⟩
        rw [hsd3]
        norm_num
      · simp only [buildDiceRoll, sidesVal, if_neg h1,
          if_neg (natDigits_ne_nil cnt.num.toNat)]
        simp only [DiceRoll.mk.injEq]
        refine ⟨trivial, ?_, ?_, hMPval⟩
        · rw [parseNat_natDigits, hcc]
        · rw [hsd3]
          norm_num
    rw [heq]

/-- Witness for C10 at `2d6-1` (standard dice, negative modifier). -/
theorem C10_witness :
    formatDiceNotationFn ⟨"standard", 2, 6, some (-1)⟩ =
      Except.ok (formatCore ⟨"standard", 2, 6, some (-1)⟩) ∧
    parseDiceNotationFn (formatCore ⟨"standard", 2, 6, some (-1)⟩) =
      Except.ok ⟨"standard", 2, 6, some (-1)⟩ :=
  C10_parse_format_roundtrip ⟨"standard", 2, 6, some (-1)⟩
    (by decide) (by decide) (by decide)
